import Mathlib

/-!
Shallow embedding of `src/main.py` of SmartWireguardConfig.

Lines of the config file are Lean `String`s; Python string primitives
(`str.strip`, `str.startswith`, `str.upper`, `str.isdigit`, `str.split(',')`,
`int(...)`, `', '.join(sorted(...))`, `list.insert`) are modelled by
structurally recursive functions over `List Char` / `List String`, and the
fatal `sys.exit(1)` calls of the source become `Option.none` results.
-/

/-- Whitespace characters stripped by Python `str.strip()` (ASCII range). -/
def wsChar (c : Char) : Bool :=
  c = ' ' || c = '\t' || c = '\n' || c = '\r' || c = '\x0b' || c = '\x0c'

/-- Python `str.strip()` on a character list: drop whitespace from both ends. -/
def stripL (cs : List Char) : List Char :=
  ((cs.dropWhile wsChar).reverse.dropWhile wsChar).reverse

/-- Python `str.strip()` on a string. -/
def pyStrip (s : String) : String :=
  ⟨stripL s.toList⟩

/-- Python `str.startswith(p)` on character lists. -/
def beginsWithL : List Char → List Char → Bool
  | _, [] => true
  | [], _ :: _ => false
  | c :: cs, p :: ps => c = p && beginsWithL cs ps

/-- Python `s.startswith(p)` on strings. -/
def pyStartsWith (s p : String) : Bool :=
  beginsWithL s.toList p.toList

/-- Python `str.upper()` (ASCII letters). -/
def pyUpper (s : String) : String :=
  ⟨s.toList.map Char.toUpper⟩

/-- Python `str.isdigit()` restricted to ASCII digit strings: non-empty and
all decimal digits. -/
def isdigitL (cs : List Char) : Bool :=
  !cs.isEmpty && cs.all Char.isDigit

/-- Numeric value of a decimal digit list. -/
def digitsVal (cs : List Char) : Nat :=
  cs.foldl (fun a c => 10 * a + (c.toNat - 48)) 0

/-- Python `int(s)` on a character list: an optional single sign followed by a
non-empty run of decimal digits; anything else raises (modelled as `none`). -/
def pyIntL (cs : List Char) : Option Int :=
  match cs with
  | '-' :: rest =>
      if !rest.isEmpty && rest.all Char.isDigit then some (-(digitsVal rest : Int)) else none
  | '+' :: rest =>
      if !rest.isEmpty && rest.all Char.isDigit then some ((digitsVal rest : Int)) else none
  | _ =>
      if !cs.isEmpty && cs.all Char.isDigit then some ((digitsVal cs : Int)) else none

/-- Python `s.split(',')`: split a character list at every comma.  Always
returns a non-empty list of parts. -/
def splitComma : List Char → List (List Char)
  | [] => [[]]
  | c :: cs =>
      match splitComma cs with
      | [] => [[]]
      | p :: ps => if c = ',' then [] :: p :: ps else (c :: p) :: ps

/-- First index of a list element satisfying `f`, as in the Python
`for i, line in enumerate(...)` searches of `update_config`. -/
def findIdxOpt (f : α → Bool) : List α → Option Nat
  | [] => none
  | a :: l => if f a then some 0 else (findIdxOpt f l).map (· + 1)

/-- Python `list.insert(n, a)`: insert at index `n`, clamping to the end. -/
def pyInsert (n : Nat) (a : α) (l : List α) : List α :=
  l.take n ++ a :: l.drop n

/-- Test of `update_config`: `line.strip().startswith('AllowedIPs =')`. -/
def isAllowedLine (line : String) : Bool :=
  pyStartsWith (pyStrip line) "AllowedIPs ="

/-- Test of `update_config`: `line.strip() == '[Peer]'`. -/
def isPeerLine (line : String) : Bool :=
  pyStrip line = "[Peer]"

/-- Test of `update_config`: `output_lines[i].strip().startswith('[')`. -/
def isSectionLine (line : String) : Bool :=
  pyStartsWith (pyStrip line) "["

/-- Python `sorted(set)` where the set is represented by a list of its
(not necessarily distinct) insertions: the distinct elements in ascending
lexicographic order. -/
def pySortedSet (l : List String) : List String :=
  List.insertionSort (· ≤ ·) l.dedup

/-- Python expression `ip_str = ', '.join(sorted(allowed_ips))` of `update_config`. -/
def joinIps (ips : List String) : String :=
  String.intercalate ", " (pySortedSet ips)

/-- The replacement line `f'AllowedIPs = {ip_str}\n'` built by `update_config`. -/
def newAllowedLine (ips : List String) : String :=
  "AllowedIPs = " ++ joinIps ips ++ "\n"

/-- The overwrite-mode scan of `update_config` (lines 115-122 of
`src/main.py`): copy every line that is not an AllowedIPs line, and record the
number of lines already copied when the first AllowedIPs line is skipped. -/
def overwriteScan : List String → List String × Option Nat
  | [] => ([], none)
  | l :: ls =>
      let r := overwriteScan ls
      if isAllowedLine l then (r.1, some 0) else (l :: r.1, r.2.map (· + 1))

/-- The append-mode boundary search of `update_config` (lines 162-166):
starting right after the `[Peer]` header at index `p`, the index of the first
line opening a new section, defaulting to the length of the file. -/
def nextSectionIdx (lines : List String) (p : Nat) : Nat :=
  match findIdxOpt isSectionLine (lines.drop (p + 1)) with
  | some j => p + 1 + j
  | none => lines.length

/-- The config-patching core of `update_config` (lines 112-173 of
`src/main.py`), on the template's lines, with `sys.exit(1)` modelled as
`none`. -/
def update_config (lines : List String) (allowedIps : List String)
    (overwrite : Bool) : Option (List String) :=
  if overwrite then
    let r := overwriteScan lines
    match r.2 with
    | some idx => some (pyInsert idx (newAllowedLine allowedIps) r.1)
    | none =>
        match findIdxOpt isPeerLine r.1 with
        | some p => some (pyInsert (p + 1) (newAllowedLine allowedIps) r.1)
        | none => none
  else
    match findIdxOpt isPeerLine lines with
    | some p => some (pyInsert (nextSectionIdx lines p) (newAllowedLine allowedIps) lines)
    | none => none

/-- Iterated append-mode patching: each successful output feeds the next
application, one IP set per application. -/
def applyAppendAll (lines : List String) : List (List String) → Option (List String)
  | [] => some lines
  | ips :: rest =>
      match update_config lines ips false with
      | some out => applyAppendAll out rest
      | none => none

/-- The validation block of `normalize_ip_class` (lines 84-93 of
`src/main.py`): `int(cidr[1:])` must parse to an integer in `[0, 32]`,
otherwise the run exits; on success the `cidr` text itself is returned. -/
def validateCidr (cidr : List Char) : Option String :=
  match pyIntL cidr.tail with
  | none => none
  | some n => if 0 ≤ n ∧ n ≤ 32 then some ⟨cidr⟩ else none

/-- Function `normalize_ip_class` of `src/main.py` (lines 62-93): uppercase the token;
a `/`-prefixed token is kept, a digit token gets `/` prepended, the class
names `A`, `B`, `C`, `HOST` map to their CIDR suffixes, anything else exits;
the chosen text then goes through the `int(cidr[1:])` validation. -/
def normalize_ip_class (ipClass : String) : Option String :=
  let u : List Char := (pyUpper ipClass).toList
  if beginsWithL u ['/'] then validateCidr u
  else if isdigitL u then validateCidr ('/' :: u)
  else if u = ['A'] then validateCidr "/8".toList
  else if u = ['B'] then validateCidr "/16".toList
  else if u = ['C'] then validateCidr "/24".toList
  else if u = "HOST".toList then validateCidr "/32".toList
  else none

/-- The IP-Class Normalizer as the spec's words describe it (claim C7): the
class names `A→/8`, `B→/16`, `C→/24`, `HOST→/32` compared case-insensitively,
a purely numeric token with value 0-32 prefixed with `/`, a `/`-prefixed token
whose numeric part has value 0-32 kept as is; every other token fails. -/
def claimNormalize (tok : String) : Option String :=
  let u : List Char := (pyUpper tok).toList
  if u = ['A'] then some "/8"
  else if u = ['B'] then some "/16"
  else if u = ['C'] then some "/24"
  else if u = "HOST".toList then some "/32"
  else if isdigitL u then
    match pyIntL u with
    | none => none
    | some n => if 0 ≤ n ∧ n ≤ 32 then some ⟨'/' :: u⟩ else none
  else if beginsWithL u ['/'] then
    match pyIntL u.tail with
    | none => none
    | some n => if 0 ≤ n ∧ n ≤ 32 then some ⟨u⟩ else none
  else none

/-- Python expression `parts[0].strip()` of `resolve_domains` (line 24): the domain of an input
entry is the stripped text before the first comma. -/
def entryDomain (e : String) : String :=
  ⟨stripL (splitComma e.toList).headI⟩

/-- Python expression `parts[1].strip() if len(parts) > 1 else default_ip_class` of
`resolve_domains` (line 25): the CIDR suffix of an input entry. -/
def entryCidr (e : String) (dflt : String) : String :=
  match splitComma e.toList with
  | _ :: p1 :: _ => ⟨stripL p1⟩
  | _ => dflt

/-- Function `resolve_domains` of `src/main.py` (lines 15-33), with DNS as an external
collaborator `resolver` (`none` models a resolution failure, which is logged
and skipped).  Each answer is formatted as `f"{answer}{ip_class}"`; the
accumulating set is represented by the list of insertions. -/
def resolve_domains (resolver : String → Option (List String))
    (domainsWithCidr : List String) (defaultIpClass : String) : List String :=
  domainsWithCidr.flatMap (fun e =>
    match resolver (entryDomain e) with
    | none => []
    | some answers => answers.map (fun a => a ++ entryCidr e defaultIpClass))

/-- Netloc extraction of `urllib.parse.urlparse`, the external collaborator of
`extract_domain`: strip a valid `scheme:` prefix, and if the remainder starts
with `//`, the netloc is what follows up to the first `/`, `?` or `#`. -/
def firstColonSplit : List Char → Option (List Char × List Char)
  | [] => none
  | c :: cs =>
      if c = ':' then some ([], cs)
      else (firstColonSplit cs).map (fun pr => (c :: pr.1, pr.2))

/-- A valid URL scheme: a letter followed by letters, digits, `+`, `-`, `.`. -/
def validScheme : List Char → Bool
  | [] => false
  | c :: cs => c.isAlpha && cs.all (fun d => d.isAlphanum || d = '+' || d = '-' || d = '.')

/-- The `netloc` component of `urllib.parse.urlparse`. -/
def urlNetloc (cs : List Char) : List Char :=
  let rest : List Char :=
    match firstColonSplit cs with
    | some pr => if validScheme pr.1 then pr.2 else cs
    | none => cs
  match rest with
  | '/' :: '/' :: t => t.takeWhile (fun c => !(c = '/' || c = '?' || c = '#'))
  | _ => []

/-- Function `extract_domain` of `src/main.py` (lines 35-40):
`parsed.netloc if parsed.netloc else url_or_domain`. -/
def extract_domain (u : String) : String :=
  let n := urlNetloc u.toList
  if n.isEmpty then u else ⟨n⟩

/-- Function `read_domains_from_file` of `src/main.py` (lines 42-60) on the file's
lines: keep each stripped line unless it is empty or starts with `#` or `//`. -/
def read_domains_from_file (fileLines : List String) : List String :=
  fileLines.filterMap (fun line =>
    let s := pyStrip line
    if s ≠ "" ∧ ¬(pyStartsWith s "#" = true) ∧ ¬(pyStartsWith s "//" = true)
    then some s else none)

/-- Overwrite-mode patching as claim C1's words describe it: remove every
AllowedIPs line, keep all other lines in order, and insert the one new line at
the number of lines already copied when the first AllowedIPs line was skipped;
with no AllowedIPs line, insert it right after the first `[Peer]` line. -/
def claimOverwrite (lines : List String) (ips : List String) : Option (List String) :=
  let kept := lines.filter (fun l => !isAllowedLine l)
  match findIdxOpt isAllowedLine lines with
  | some k =>
      some (pyInsert ((lines.take k).countP (fun l => !isAllowedLine l))
        (newAllowedLine ips) kept)
  | none =>
      match findIdxOpt isPeerLine lines with
      | some p => some (pyInsert (p + 1) (newAllowedLine ips) lines)
      | none => none

theorem findIdxOpt_eq_none_iff (f : α → Bool) (l : List α) :
    findIdxOpt f l = none ↔ ∀ x ∈ l, f x = false := by
  induction l with
  | nil => simp [findIdxOpt]
  | cons a l ih =>
    simp only [findIdxOpt]
    by_cases h : f a
    · simp [h]
    · simp [h, Option.map_eq_none', ih]

theorem findIdxOpt_some_charac (f : α → Bool) (d : α) :
    ∀ (l : List α) (i : Nat), findIdxOpt f l = some i →
      i < l.length ∧ f (l.getD i d) = true ∧ ∀ j, j < i → f (l.getD j d) = false := by
  intro l
  induction l with
  | nil => intro i h; simp [findIdxOpt] at h
  | cons a l ih =>
    intro i h
    simp only [findIdxOpt] at h
    by_cases ha : f a
    · simp only [ha, if_pos] at h
      cases h
      simp [ha]
    · simp only [ha, if_neg, Bool.false_eq_true, not_false_iff] at h
      obtain ⟨i', hi', rfl⟩ := Option.map_eq_some'.mp h
      obtain ⟨h1, h2, h3⟩ := ih i' hi'
      refine ⟨by simpa using h1, by simpa using h2, ?_⟩
      intro j hj
      cases j with
      | zero => simpa using ha
      | succ j => simpa using h3 j (by omega)

theorem findIdxOpt_eq_some_of (f : α → Bool) (d : α) :
    ∀ (l : List α) (i : Nat), i < l.length → f (l.getD i d) = true →
      (∀ j, j < i → f (l.getD j d) = false) → findIdxOpt f l = some i := by
  intro l
  induction l with
  | nil => intro i h; simp at h
  | cons a l ih =>
    intro i hi hfi hbelow
    cases i with
    | zero =>
      simp only [List.getD_cons_zero] at hfi
      simp [findIdxOpt, hfi]
    | succ i =>
      have ha : f a = false := by simpa using hbelow 0 (Nat.succ_pos _)
      have hrec := ih i (by simpa using hi) (by simpa using hfi)
        (fun j hj => by simpa using hbelow (j + 1) (by omega))
      simp [findIdxOpt, ha, hrec]

theorem findIdxOpt_append_left (f : α → Bool) :
    ∀ (xs ys : List α) (i : Nat), findIdxOpt f xs = some i →
      findIdxOpt f (xs ++ ys) = some i := by
  intro xs
  induction xs with
  | nil => intro ys i h; simp [findIdxOpt] at h
  | cons a xs ih =>
    intro ys i h
    simp only [findIdxOpt, List.cons_append] at h ⊢
    by_cases ha : f a
    · simpa [ha] using h
    · simp only [ha, if_neg, Bool.false_eq_true, not_false_iff] at h ⊢
      obtain ⟨i', hi', rfl⟩ := Option.map_eq_some'.mp h
      simp [ih ys i' hi']

theorem findIdxOpt_append_none (f : α → Bool) :
    ∀ (xs ys : List α), (∀ x ∈ xs, f x = false) →
      findIdxOpt f (xs ++ ys) = (findIdxOpt f ys).map (xs.length + ·) := by
  intro xs
  induction xs with
  | nil =>
    intro ys _
    simp only [List.nil_append, List.length_nil]
    cases h : findIdxOpt f ys <;> simp [h]
  | cons a xs ih =>
    intro ys hall
    have ha : f a = false := hall a (List.mem_cons_self a xs)
    simp only [List.cons_append, findIdxOpt, ha, Bool.false_eq_true, if_neg, not_false_iff]
    rw [show xs.append ys = xs ++ ys from rfl,
      ih ys (fun x hx => hall x (List.mem_cons_of_mem a hx))]
    cases h : findIdxOpt f ys <;> simp [h] <;> omega

theorem overwriteScan_eq (lines : List String) :
    overwriteScan lines =
      (lines.filter (fun l => !isAllowedLine l),
       (findIdxOpt isAllowedLine lines).map
         (fun k => (lines.take k).countP (fun l => !isAllowedLine l))) := by
  induction lines with
  | nil => rfl
  | cons a l ih =>
    simp only [overwriteScan, findIdxOpt, ih]
    by_cases ha : isAllowedLine a
    · simp [ha, List.filter_cons]
    · simp only [ha, Bool.false_eq_true, if_neg, not_false_iff, List.filter_cons,
        Bool.not_false, if_pos]
      congr 1
      cases h : findIdxOpt isAllowedLine l <;>
        simp [h, List.countP_cons, ha, Nat.add_comm]

/-- Claim C1: in overwrite mode, the patcher's output is the template with
every AllowedIPs line removed, the other lines kept in order, and one new
AllowedIPs line inserted at the output position of the first removed line;
with no AllowedIPs line it is inserted right after the first `[Peer]` line. -/
theorem overwrite_matches_claim (lines ips : List String) (h : ips ≠ []) :
    update_config lines ips true = claimOverwrite lines ips := by
  simp only [update_config, claimOverwrite, overwriteScan_eq, if_true]
  cases hk : findIdxOpt isAllowedLine lines with
  | some k => simp [hk]
  | none =>
    have hfilter : lines.filter (fun l => !isAllowedLine l) = lines :=
      List.filter_eq_self.mpr
        (fun a ha => by simp [(findIdxOpt_eq_none_iff _ _).mp hk a ha])
    simp [hk, hfilter]

theorem overwrite_matches_claim_witness :
    (["1.1.1.1/32"] : List String) ≠ [] ∧
      update_config ["[Peer]\n", "AllowedIPs = 9.9.9.9/32\n"] ["1.1.1.1/32"] true =
        claimOverwrite ["[Peer]\n", "AllowedIPs = 9.9.9.9/32\n"] ["1.1.1.1/32"] :=
  ⟨by decide, overwrite_matches_claim _ _ (by decide)⟩

theorem beginsWithL_append_self : ∀ (t u : List Char), beginsWithL (t ++ u) t = true := by
  intro t
  induction t with
  | nil => intro u; cases u <;> rfl
  | cons c t ih => intro u; simp [beginsWithL, ih]

theorem stripL_allowed_entire (rest : List Char) :
    ∃ u, stripL ("AllowedIPs = ".toList ++ rest) = "AllowedIPs =".toList ++ u := by
  unfold stripL
  rw [List.dropWhile_append]
  rw [show List.dropWhile wsChar "AllowedIPs = ".toList = "AllowedIPs = ".toList by decide]
  rw [if_neg (by decide)]
  rw [List.reverse_append, List.dropWhile_append]
  by_cases hc : (List.dropWhile wsChar rest.reverse).isEmpty = true
  · rw [if_pos hc]
    refine ⟨[], ?_⟩
    rw [show List.dropWhile wsChar "AllowedIPs = ".toList.reverse
        = "AllowedIPs =".toList.reverse by decide]
    simp
  · rw [if_neg hc]
    refine ⟨' ' :: (List.dropWhile wsChar rest.reverse).reverse, ?_⟩
    rw [List.reverse_append, List.reverse_reverse]
    rw [show "AllowedIPs = ".toList = "AllowedIPs =".toList ++ [' '] by decide]
    simp

theorem toList_newAllowedLine (ips : List String) :
    (newAllowedLine ips).toList = "AllowedIPs = ".toList ++ ((joinIps ips).toList ++ "\n".toList) := by
  simp [newAllowedLine, String.toList, String.data_append]

theorem isAllowedLine_newAllowedLine (ips : List String) :
    isAllowedLine (newAllowedLine ips) = true := by
  unfold isAllowedLine pyStartsWith pyStrip
  rw [toList_newAllowedLine]
  obtain ⟨u, hu⟩ := stripL_allowed_entire ((joinIps ips).toList ++ "\n".toList)
  rw [show ((⟨stripL ("AllowedIPs = ".toList ++ ((joinIps ips).toList ++ "\n".toList))⟩ :
      String).toList) = stripL ("AllowedIPs = ".toList ++ ((joinIps ips).toList ++ "\n".toList))
      from rfl]
  rw [hu]
  exact beginsWithL_append_self _ _

theorem stripL_newAllowedLine_shape (ips : List String) :
    ∃ u, stripL (newAllowedLine ips).toList = "AllowedIPs =".toList ++ u := by
  rw [toList_newAllowedLine]
  exact stripL_allowed_entire _

theorem isSectionLine_newAllowedLine (ips : List String) :
    isSectionLine (newAllowedLine ips) = false := by
  unfold isSectionLine pyStartsWith pyStrip
  obtain ⟨u, hu⟩ := stripL_newAllowedLine_shape ips
  rw [show ((⟨stripL (newAllowedLine ips).toList⟩ : String).toList)
      = stripL (newAllowedLine ips).toList from rfl]
  rw [hu]
  rfl

theorem isPeerLine_newAllowedLine (ips : List String) :
    isPeerLine (newAllowedLine ips) = false := by
  unfold isPeerLine pyStrip
  obtain ⟨u, hu⟩ := stripL_newAllowedLine_shape ips
  simp only [decide_eq_false_iff_not]
  intro hcontra
  have : stripL (newAllowedLine ips).toList = "[Peer]".toList := by
    have := congrArg String.toList hcontra
    simpa using this
  rw [hu] at this
  simp at this

/-- Claim C3 counterexample: in append mode the patcher fails on a template
that has an `AllowedIPs =` anchor but no `[Peer]` header, although the claim
says the presence of either anchor guarantees success. -/
theorem append_fails_despite_allowed_anchor :
    update_config ["AllowedIPs = 10.0.0.0/8\n"] ["1.2.3.4/32"] false = none ∧
      isAllowedLine "AllowedIPs = 10.0.0.0/8\n" = true := by
  constructor
  · rfl
  · decide

/-- Claim C3 (amended): in overwrite mode the patcher fails exactly when the
template has neither an `AllowedIPs =` line nor a `[Peer]` line; in append
mode it fails exactly when the template has no `[Peer]` line, regardless of
any `AllowedIPs =` anchor. -/
theorem update_config_fails_iff (lines ips : List String) :
    (update_config lines ips true = none ↔
      ((∀ l ∈ lines, isAllowedLine l = false) ∧ (∀ l ∈ lines, isPeerLine l = false)))
    ∧ (update_config lines ips false = none ↔ (∀ l ∈ lines, isPeerLine l = false)) := by
  constructor
  · simp only [update_config, if_true, overwriteScan_eq]
    cases hk : findIdxOpt isAllowedLine lines with
    | some k =>
      simp only [Option.map_some']
      constructor
      · intro h; simp at h
      · rintro ⟨hall, -⟩
        have h2 := (findIdxOpt_eq_none_iff isAllowedLine lines).mpr hall
        rw [h2] at hk
        exact Option.noConfusion hk
    | none =>
      have hall : ∀ l ∈ lines, isAllowedLine l = false :=
        (findIdxOpt_eq_none_iff _ _).mp hk
      have hfilter : lines.filter (fun l => !isAllowedLine l) = lines :=
        List.filter_eq_self.mpr (fun a ha => by simp [hall a ha])
      simp only [Option.map_none', hfilter]
      cases hp : findIdxOpt isPeerLine lines with
      | some p =>
        constructor
        · intro h; simp at h
        · rintro ⟨-, hpeer⟩
          have h2 := (findIdxOpt_eq_none_iff isPeerLine lines).mpr hpeer
          rw [h2] at hp
          exact Option.noConfusion hp
      | none =>
        simp [hp]
        exact ⟨hall, (findIdxOpt_eq_none_iff isPeerLine lines).mp hp⟩
  · simp only [update_config, Bool.false_eq_true, if_false]
    cases hp : findIdxOpt isPeerLine lines with
    | some p =>
      constructor
      · intro h; simp at h
      · intro hpeer
        have h2 := (findIdxOpt_eq_none_iff isPeerLine lines).mpr hpeer
        rw [h2] at hp
        exact Option.noConfusion hp
    | none =>
      simp [hp]
      exact (findIdxOpt_eq_none_iff isPeerLine lines).mp hp

theorem update_config_fails_iff_witness :
    update_config ["Key = Value\n"] ["1.2.3.4/32"] false = none :=
  (update_config_fails_iff ["Key = Value\n"] ["1.2.3.4/32"]).2.mpr (by decide)

theorem overwrite_fixpoint_aux (ks ips : List String) (m : Nat)
    (hks : ∀ l ∈ ks, isAllowedLine l = false) (hm : m ≤ ks.length) :
    update_config (pyInsert m (newAllowedLine ips) ks) ips true
      = some (pyInsert m (newAllowedLine ips) ks)
    ∧ (pyInsert m (newAllowedLine ips) ks).countP isAllowedLine = 1 := by
  have htakelen : (ks.take m).length = m := by
    rw [List.length_take]; omega
  have htake : ∀ x ∈ ks.take m, isAllowedLine x = false :=
    fun x hx => hks x (List.take_subset m ks hx)
  have hdrop : ∀ x ∈ ks.drop m, isAllowedLine x = false :=
    fun x hx => hks x (List.drop_subset m ks hx)
  have hnl := isAllowedLine_newAllowedLine ips
  have hfind : findIdxOpt isAllowedLine (pyInsert m (newAllowedLine ips) ks) = some m := by
    unfold pyInsert
    rw [findIdxOpt_append_none isAllowedLine _ _ htake]
    simp [findIdxOpt, hnl, htakelen]
  have hfilter : (pyInsert m (newAllowedLine ips) ks).filter (fun l => !isAllowedLine l) = ks := by
    unfold pyInsert
    rw [List.filter_append, List.filter_cons]
    simp only [hnl, Bool.not_true, Bool.false_eq_true, if_false]
    rw [List.filter_eq_self.mpr (fun a ha => by simp [htake a ha]),
        List.filter_eq_self.mpr (fun a ha => by simp [hdrop a ha])]
    exact List.take_append_drop m ks
  have hcount1 : (pyInsert m (newAllowedLine ips) ks).countP isAllowedLine = 1 := by
    unfold pyInsert
    rw [List.countP_append, List.countP_cons]
    have h1 : (ks.take m).countP isAllowedLine = 0 :=
      List.countP_eq_zero.mpr (fun a ha => by simp [htake a ha])
    have h2 : (ks.drop m).countP isAllowedLine = 0 :=
      List.countP_eq_zero.mpr (fun a ha => by simp [hdrop a ha])
    simp [h1, h2, hnl]
  refine ⟨?_, hcount1⟩
  have hpos : ((pyInsert m (newAllowedLine ips) ks).take m).countP (fun l => !isAllowedLine l)
      = m := by
    have heq : (pyInsert m (newAllowedLine ips) ks).take m = ks.take m := by
      unfold pyInsert
      exact List.take_left' htakelen
    rw [heq]
    calc (ks.take m).countP (fun l => !isAllowedLine l)
        = (ks.take m).length := List.countP_eq_length.mpr (fun a ha => by simp [htake a ha])
      _ = m := htakelen
  simp only [update_config, if_true, overwriteScan_eq, hfind, Option.map_some', hfilter, hpos]

/-- Claim C4: overwrite-mode patching is idempotent: a successful first
application yields a file with exactly one AllowedIPs line, and a second
application with the same IP set returns that file unchanged. -/
theorem overwrite_idempotent (lines ips out1 : List String) (hips : ips ≠ [])
    (h1 : update_config lines ips true = some out1) :
    out1.countP isAllowedLine = 1 ∧ update_config out1 ips true = some out1 := by
  simp only [update_config, if_true, overwriteScan_eq] at h1
  cases hk : findIdxOpt isAllowedLine lines with
  | some k =>
    rw [hk] at h1
    simp only [Option.map_some', Option.some.injEq] at h1
    have hkept : ∀ l ∈ lines.filter (fun l => !isAllowedLine l), isAllowedLine l = false :=
      fun l hl => by simpa using (List.mem_filter.mp hl).2
    have hmle : (lines.take k).countP (fun l => !isAllowedLine l)
        ≤ (lines.filter (fun l => !isAllowedLine l)).length := by
      rw [← List.countP_eq_length_filter]
      calc (lines.take k).countP (fun l => !isAllowedLine l)
          ≤ (lines.take k).countP (fun l => !isAllowedLine l)
            + (lines.drop k).countP (fun l => !isAllowedLine l) := Nat.le_add_right _ _
        _ = lines.countP (fun l => !isAllowedLine l) := by
            rw [← List.countP_append, List.take_append_drop]
    obtain ⟨hfix, hcount⟩ := overwrite_fixpoint_aux
      (lines.filter (fun l => !isAllowedLine l)) ips
      ((lines.take k).countP (fun l => !isAllowedLine l)) hkept hmle
    rw [h1] at hfix hcount
    exact ⟨hcount, hfix⟩
  | none =>
    rw [hk] at h1
    have hall : ∀ l ∈ lines, isAllowedLine l = false :=
      (findIdxOpt_eq_none_iff _ _).mp hk
    have hfilter : lines.filter (fun l => !isAllowedLine l) = lines :=
      List.filter_eq_self.mpr (fun a ha => by simp [hall a ha])
    rw [hfilter] at h1
    simp only [Option.map_none'] at h1
    cases hp : findIdxOpt isPeerLine lines with
    | some p =>
      rw [hp] at h1
      simp only [Option.some.injEq] at h1
      have hplen := (findIdxOpt_some_charac isPeerLine "" lines p hp).1
      obtain ⟨hfix, hcount⟩ := overwrite_fixpoint_aux lines ips (p + 1) hall (by omega)
      rw [h1] at hfix hcount
      exact ⟨hcount, hfix⟩
    | none =>
      rw [hp] at h1
      exact Option.noConfusion h1

theorem overwrite_idempotent_witness :
    (["1.2.3.4/32"] : List String) ≠ [] ∧
      update_config ["[Peer]\n"] ["1.2.3.4/32"] true
        = some ["[Peer]\n", "AllowedIPs = 1.2.3.4/32\n"] ∧
      (["[Peer]\n", "AllowedIPs = 1.2.3.4/32\n"].countP isAllowedLine = 1 ∧
        update_config ["[Peer]\n", "AllowedIPs = 1.2.3.4/32\n"] ["1.2.3.4/32"] true
          = some ["[Peer]\n", "AllowedIPs = 1.2.3.4/32\n"]) :=
  ⟨by decide, by decide,
    overwrite_idempotent ["[Peer]\n"] ["1.2.3.4/32"] _ (by decide) (by decide)⟩

theorem getD_drop_idx (l : List String) (n m : Nat) :
    (l.drop n).getD m "" = l.getD (n + m) "" := by
  simp [List.getD_eq_getElem?_getD, List.getElem?_drop]

theorem nextSectionIdx_spec (lines : List String) (p : Nat) (hp : p < lines.length) :
    p < nextSectionIdx lines p ∧ nextSectionIdx lines p ≤ lines.length
    ∧ (∀ i, p < i → i < nextSectionIdx lines p → isSectionLine (lines.getD i "") = false)
    ∧ ((nextSectionIdx lines p < lines.length
        ∧ isSectionLine (lines.getD (nextSectionIdx lines p) "") = true)
       ∨ nextSectionIdx lines p = lines.length) := by
  cases hj : findIdxOpt isSectionLine (lines.drop (p + 1)) with
  | some j =>
    have hnb : nextSectionIdx lines p = p + 1 + j := by
      unfold nextSectionIdx; rw [hj]
    rw [hnb]
    obtain ⟨hjlen, hjget, hjbelow⟩ := findIdxOpt_some_charac isSectionLine "" _ j hj
    rw [List.length_drop] at hjlen
    rw [getD_drop_idx] at hjget
    refine ⟨by omega, by omega, ?_, Or.inl ⟨by omega, hjget⟩⟩
    intro i hi1 hi2
    have ht := hjbelow (i - (p + 1)) (by omega)
    rw [getD_drop_idx] at ht
    rwa [show p + 1 + (i - (p + 1)) = i by omega] at ht
  | none =>
    have hnb : nextSectionIdx lines p = lines.length := by
      unfold nextSectionIdx; rw [hj]
    rw [hnb]
    have hall := (findIdxOpt_eq_none_iff isSectionLine (lines.drop (p + 1))).mp hj
    refine ⟨by omega, Nat.le_refl _, ?_, Or.inr rfl⟩
    intro i hi1 hi2
    have hmem : lines.getD i "" ∈ lines.drop (p + 1) := by
      rw [show i = p + 1 + (i - (p + 1)) by omega, ← getD_drop_idx]
      rw [List.getD_eq_getElem _ _ (by rw [List.length_drop]; omega)]
      exact List.getElem_mem _
    exact hall _ hmem

/-- Claim C2: in append mode, on a template whose first `[Peer]` line is at
index `p`, the output is the original sequence with one new AllowedIPs line
inserted at the index of the first line after the `[Peer]` line whose trimmed
content starts with `[`, or at the end of the sequence if no such line
exists. -/
theorem append_matches_claim (lines ips : List String) (p : Nat) (hips : ips ≠ [])
    (hp : findIdxOpt isPeerLine lines = some p) :
    ∃ b, update_config lines ips false = some (pyInsert b (newAllowedLine ips) lines)
      ∧ p < b ∧ b ≤ lines.length
      ∧ (∀ i, p < i → i < b → isSectionLine (lines.getD i "") = false)
      ∧ ((b < lines.length ∧ isSectionLine (lines.getD b "") = true)
         ∨ b = lines.length) := by
  have hplen := (findIdxOpt_some_charac isPeerLine "" lines p hp).1
  obtain ⟨h1, h2, h3, h4⟩ := nextSectionIdx_spec lines p hplen
  exact ⟨nextSectionIdx lines p, by simp [update_config, hp], h1, h2, h3, h4⟩

theorem append_matches_claim_witness :
    ∃ b, update_config ["[Peer]\n", "[Interface]\n"] ["1.2.3.4/32"] false
        = some (pyInsert b (newAllowedLine ["1.2.3.4/32"]) ["[Peer]\n", "[Interface]\n"])
      ∧ 0 < b ∧ b ≤ (["[Peer]\n", "[Interface]\n"] : List String).length
      ∧ (∀ i, 0 < i → i < b →
          isSectionLine ((["[Peer]\n", "[Interface]\n"] : List String).getD i "") = false)
      ∧ ((b < (["[Peer]\n", "[Interface]\n"] : List String).length
          ∧ isSectionLine ((["[Peer]\n", "[Interface]\n"] : List String).getD b "") = true)
         ∨ b = (["[Peer]\n", "[Interface]\n"] : List String).length) :=
  append_matches_claim ["[Peer]\n", "[Interface]\n"] ["1.2.3.4/32"] 0 (by decide) (by decide)

theorem getD_take_idx (l : List String) (n i : Nat) (h : i < n) :
    (l.take n).getD i "" = l.getD i "" := by
  by_cases hi : i < l.length
  · rw [List.getD_eq_getElem _ _ (by simp; omega), List.getD_eq_getElem _ _ hi]
    exact List.getElem_take _
  · rw [List.getD_eq_default _ _ (by simp; omega), List.getD_eq_default _ _ (by omega)]

theorem sectionFree_drop (A : List String) (p : Nat)
    (hA2 : ∀ i, p < i → isSectionLine (A.getD i "") = false) :
    ∀ x ∈ A.drop (p + 1), isSectionLine x = false := by
  intro x hx
  obtain ⟨t, ht, hxe⟩ := List.mem_iff_getElem.mp hx
  rw [List.getElem_drop] at hxe
  have hlen : p + 1 + t < A.length := by rw [List.length_drop] at ht; omega
  rw [← hxe, ← List.getD_eq_getElem A "" hlen]
  exact hA2 _ (by omega)

theorem appendAll_aux (A B : List String) (p : Nat)
    (hA : findIdxOpt isPeerLine A = some p)
    (hA2 : ∀ i, p < i → isSectionLine (A.getD i "") = false)
    (hB : B = [] ∨ isSectionLine (B.headD "") = true) :
    ∀ (ipsList : List (List String)) (news : List String),
      (∀ n ∈ news, isSectionLine n = false) →
      applyAppendAll (A ++ (news ++ B)) ipsList
        = some (A ++ ((news ++ ipsList.map newAllowedLine) ++ B)) := by
  intro ipsList
  induction ipsList with
  | nil =>
    intro news hnews
    simp [applyAppendAll]
  | cons ips rest ih =>
    intro news hnews
    have hplen := (findIdxOpt_some_charac isPeerLine "" A p hA).1
    have hfp : findIdxOpt isPeerLine (A ++ (news ++ B)) = some p :=
      findIdxOpt_append_left isPeerLine A (news ++ B) p hA
    have hAdrop : ∀ x ∈ A.drop (p + 1), isSectionLine x = false := sectionFree_drop A p hA2
    have hb : nextSectionIdx (A ++ (news ++ B)) p = A.length + news.length := by
      rcases hB with hBnil | hBhead
      · subst hBnil
        have hscrut : findIdxOpt isSectionLine ((A ++ (news ++ [])).drop (p + 1)) = none := by
          rw [List.drop_append_of_le_length (by omega)]
          apply (findIdxOpt_eq_none_iff _ _).mpr
          intro x hx
          rcases List.mem_append.mp hx with h | h
          · exact hAdrop x h
          · rcases List.mem_append.mp h with h2 | h2
            · exact hnews x h2
            · simp at h2
        unfold nextSectionIdx
        rw [hscrut]
        simp
      · cases B with
        | nil => exact absurd hBhead (by decide)
        | cons bh bt =>
          simp only [List.headD] at hBhead
          have hscrut : findIdxOpt isSectionLine ((A ++ (news ++ bh :: bt)).drop (p + 1))
              = some ((A.drop (p + 1)).length + (news.length + 0)) := by
            rw [List.drop_append_of_le_length (by omega)]
            rw [findIdxOpt_append_none isSectionLine _ _ hAdrop]
            rw [findIdxOpt_append_none isSectionLine _ _ hnews]
            rw [show findIdxOpt isSectionLine (bh :: bt) = some 0 by
              simp [findIdxOpt, hBhead]]
            simp
          unfold nextSectionIdx
          rw [hscrut]
          simp [List.length_drop]
          omega
    have hstep : update_config (A ++ (news ++ B)) ips false
        = some ((A ++ news) ++ (newAllowedLine ips) :: B) := by
      simp only [update_config, Bool.false_eq_true, if_false, hfp]
      rw [hb]
      congr 1
      unfold pyInsert
      rw [show A ++ (news ++ B) = (A ++ news) ++ B from (List.append_assoc A news B).symm]
      rw [List.take_left' (by simp), List.drop_left' (by simp)]
    have hih := ih (news ++ [newAllowedLine ips]) (by
      intro n hn
      rcases List.mem_append.mp hn with h | h
      · exact hnews n h
      · rw [List.mem_singleton.mp h]; exact isSectionLine_newAllowedLine ips)
    unfold applyAppendAll
    rw [hstep]
    show applyAppendAll ((A ++ news) ++ newAllowedLine ips :: B) rest
        = some (A ++ ((news ++ (newAllowedLine ips :: rest.map newAllowedLine)) ++ B))
    rw [show (A ++ news) ++ newAllowedLine ips :: B
        = A ++ ((news ++ [newAllowedLine ips]) ++ B) by simp]
    rw [hih]
    simp

/-- Claim C5: append accumulation.  On a template whose first `[Peer]` line is
at index `p`, N successive append-mode applications (each output feeding the
next) all succeed and produce the original lines with the N new AllowedIPs
lines inserted, in application order, as a block at the section boundary
`nextSectionIdx` inside the `[Peer]` section; a new line is emitted on every
application, so the AllowedIPs line count grows by exactly N. -/
theorem append_accumulation (lines : List String) (p : Nat) (ipsList : List (List String))
    (hp : findIdxOpt isPeerLine lines = some p) :
    ∃ b, b = nextSectionIdx lines p ∧ p < b ∧ b ≤ lines.length
      ∧ applyAppendAll lines ipsList
          = some (lines.take b ++ (ipsList.map newAllowedLine ++ lines.drop b))
      ∧ (lines.take b ++ (ipsList.map newAllowedLine ++ lines.drop b)).countP isAllowedLine
          = lines.countP isAllowedLine + ipsList.length := by
  obtain ⟨hplen, hpget, hpbelow⟩ := findIdxOpt_some_charac isPeerLine "" lines p hp
  obtain ⟨hb1, hb2, hb3, hb4⟩ := nextSectionIdx_spec lines p hplen
  set b := nextSectionIdx lines p with hbdef
  have htklen : (lines.take b).length = b := by rw [List.length_take]; omega
  have hA : findIdxOpt isPeerLine (lines.take b) = some p := by
    apply findIdxOpt_eq_some_of isPeerLine "" _ p (by omega)
    · rw [getD_take_idx _ _ _ (by omega)]; exact hpget
    · intro j hj
      rw [getD_take_idx _ _ _ (by omega)]
      exact hpbelow j hj
  have hA2 : ∀ i, p < i → isSectionLine ((lines.take b).getD i "") = false := by
    intro i hi
    by_cases hib : i < b
    · rw [getD_take_idx _ _ _ hib]
      exact hb3 i hi hib
    · rw [List.getD_eq_default _ _ (by rw [htklen]; omega)]
      decide
  have hB : lines.drop b = [] ∨ isSectionLine ((lines.drop b).headD "") = true := by
    rcases hb4 with ⟨hlt, hsec⟩ | heq
    · right
      cases hd : lines.drop b with
      | nil =>
        exfalso
        have hlen := congrArg List.length hd
        rw [List.length_drop] at hlen
        simp at hlen
        omega
      | cons a t =>
        have h0 : (lines.drop b).getD 0 "" = lines.getD (b + 0) "" := getD_drop_idx lines b 0
        rw [hd] at h0
        simp only [List.getD_cons_zero] at h0
        simp only [List.headD]
        rw [h0]
        simpa using hsec
    · left
      rw [heq]
      exact List.drop_length lines
  have hmain := appendAll_aux (lines.take b) (lines.drop b) p hA hA2 hB ipsList []
    (by intro n hn; simp at hn)
  simp only [List.nil_append] at hmain
  rw [List.take_append_drop] at hmain
  refine ⟨b, rfl, hb1, hb2, hmain, ?_⟩
  rw [List.countP_append, List.countP_append]
  have hmapcnt : (ipsList.map newAllowedLine).countP isAllowedLine = ipsList.length := by
    rw [List.countP_eq_length.mpr (by
      intro a ha
      obtain ⟨x, hx, rfl⟩ := List.mem_map.mp ha
      exact isAllowedLine_newAllowedLine x)]
    exact List.length_map _ _
  have hsplit : (lines.take b).countP isAllowedLine + (lines.drop b).countP isAllowedLine
      = lines.countP isAllowedLine := by
    rw [← List.countP_append, List.take_append_drop]
  omega

theorem append_accumulation_witness :
    ∃ b, b = nextSectionIdx ["[Peer]\n"] 0 ∧ 0 < b ∧ b ≤ (["[Peer]\n"] : List String).length
      ∧ applyAppendAll ["[Peer]\n"] [["1.2.3.4/32"], ["5.6.7.8/32"]]
          = some ((["[Peer]\n"] : List String).take b
              ++ (([["1.2.3.4/32"], ["5.6.7.8/32"]] : List (List String)).map newAllowedLine
                  ++ (["[Peer]\n"] : List String).drop b))
      ∧ ((["[Peer]\n"] : List String).take b
          ++ (([["1.2.3.4/32"], ["5.6.7.8/32"]] : List (List String)).map newAllowedLine
              ++ (["[Peer]\n"] : List String).drop b)).countP isAllowedLine
          = (["[Peer]\n"] : List String).countP isAllowedLine
            + ([["1.2.3.4/32"], ["5.6.7.8/32"]] : List (List String)).length :=
  append_accumulation ["[Peer]\n"] 0 [["1.2.3.4/32"], ["5.6.7.8/32"]] (by decide)

theorem pySortedSet_sorted (l : List String) : (pySortedSet l).Sorted (· ≤ ·) :=
  List.sorted_insertionSort _ _

theorem pySortedSet_nodup (l : List String) : (pySortedSet l).Nodup :=
  ((List.perm_insertionSort _ _).nodup_iff).mpr l.nodup_dedup

theorem pySortedSet_mem (l : List String) (x : String) : x ∈ pySortedSet l ↔ x ∈ l := by
  unfold pySortedSet
  rw [List.mem_insertionSort]
  exact List.mem_dedup

theorem pySortedSet_ext (l1 l2 : List String) (h : ∀ x, x ∈ l1 ↔ x ∈ l2) :
    pySortedSet l1 = pySortedSet l2 := by
  apply List.eq_of_perm_of_sorted ?_ (pySortedSet_sorted l1) (pySortedSet_sorted l2)
  have h1 : List.Perm (pySortedSet l1) l1.dedup := List.perm_insertionSort _ _
  have h2 : List.Perm (pySortedSet l2) l2.dedup := List.perm_insertionSort _ _
  have hd : List.Perm l1.dedup l2.dedup := by
    apply (List.perm_ext_iff_of_nodup l1.nodup_dedup l2.nodup_dedup).mpr
    intro a
    simp only [List.mem_dedup]
    exact h a
  exact h1.trans (hd.trans h2.symm)

/-- Claim C6: the AllowedIPs line built by the patcher is "AllowedIPs = "
followed by the IP set's elements with exact duplicates collapsed, sorted
ascending, joined by ", ", followed by a newline; its content therefore
depends only on membership in the accumulated set, not on insertion order. -/
theorem allowedLine_deterministic (ips : List String) (hne : ips ≠ []) :
    newAllowedLine ips = "AllowedIPs = " ++ String.intercalate ", " (pySortedSet ips) ++ "\n"
    ∧ (pySortedSet ips).Sorted (· ≤ ·)
    ∧ (pySortedSet ips).Nodup
    ∧ (∀ x, x ∈ pySortedSet ips ↔ x ∈ ips)
    ∧ ∀ ips2, (∀ x, x ∈ ips2 ↔ x ∈ ips) → newAllowedLine ips2 = newAllowedLine ips := by
  refine ⟨rfl, pySortedSet_sorted ips, pySortedSet_nodup ips, pySortedSet_mem ips, ?_⟩
  intro ips2 h2
  unfold newAllowedLine joinIps
  rw [pySortedSet_ext ips2 ips h2]

theorem allowedLine_deterministic_witness :
    (["b/32", "a/32"] : List String) ≠ [] ∧
      newAllowedLine ["a/32", "b/32", "a/32"] = newAllowedLine ["b/32", "a/32"] :=
  ⟨by decide, (allowedLine_deterministic ["b/32", "a/32"] (by decide)).2.2.2.2
    ["a/32", "b/32", "a/32"] (by intro x; simp only [List.mem_cons, List.not_mem_nil]; tauto)⟩

theorem slash_not_digit (u : List Char) (h : beginsWithL u ['/'] = true) : isdigitL u = false := by
  cases u with
  | nil => simp [beginsWithL] at h
  | cons c cs =>
    have hc : c = '/' := by
      have h2 : (decide (c = '/') && beginsWithL cs []) = true := h
      rw [Bool.and_eq_true, decide_eq_true_eq] at h2
      exact h2.1
    subst hc
    show (!(List.isEmpty ('/' :: cs)) && List.all ('/' :: cs) Char.isDigit) = false
    rw [List.all_cons]
    simp [show Char.isDigit '/' = false from by decide]

theorem digit_not_slash (u : List Char) (h : isdigitL u = true) : beginsWithL u ['/'] = false := by
  cases u with
  | nil => simp [isdigitL] at h
  | cons c cs =>
    have hc : c.isDigit = true := by
      have h2 : (!(List.isEmpty (c :: cs)) && List.all (c :: cs) Char.isDigit) = true := h
      rw [Bool.and_eq_true, List.all_cons, Bool.and_eq_true] at h2
      exact h2.2.1
    have hne : ¬(c = '/') := by
      intro he
      subst he
      exact absurd hc (by decide)
    show (decide (c = '/') && beginsWithL cs []) = false
    simp [hne]

/-- Claim C7: on every token, the IP-class normalizer agrees with the spec's
case analysis `claimNormalize`: the class names `A`, `B`, `C`, `HOST` map to
`/8`, `/16`, `/24`, `/32` case-insensitively, a purely numeric token and a
`/`-prefixed numeric token are accepted exactly when their value lies in
`[0, 32]` (keeping the token's own digits), and every other token fails
fatally. -/
theorem normalize_matches_claim (s : String) :
    normalize_ip_class s = claimNormalize s := by
  unfold normalize_ip_class claimNormalize
  generalize (pyUpper s).toList = u
  by_cases hA : u = ['A']
  · subst hA; decide
  by_cases hB : u = ['B']
  · subst hB; decide
  by_cases hC : u = ['C']
  · subst hC; decide
  by_cases hH : u = "HOST".toList
  · subst hH; decide
  by_cases hd : isdigitL u = true
  · have hs : beginsWithL u ['/'] = false := digit_not_slash u hd
    simp only [hs, hd, hA, hB, hC, hH, Bool.false_eq_true, if_false, if_true, if_neg, if_pos]
    rfl
  · by_cases hsl : beginsWithL u ['/'] = true
    · simp only [hsl, hd, hA, hB, hC, hH, if_true, if_false]
      rfl
    · simp only [hsl, hd, hA, hB, hC, hH, Bool.false_eq_true, if_false]

theorem splitComma_ne_nil (cs : List Char) : splitComma cs ≠ [] := by
  cases cs with
  | nil => simp [splitComma]
  | cons c cs =>
    simp only [splitComma]
    cases h : splitComma cs with
    | nil => simp
    | cons p ps => by_cases hc : c = ',' <;> simp [hc]

theorem splitComma_no_comma (cs : List Char) (h : ',' ∉ cs) : splitComma cs = [cs] := by
  induction cs with
  | nil => rfl
  | cons c cs ih =>
    have hc : ¬(c = ',') := fun he => h (he ▸ List.mem_cons_self c cs)
    have hcs : ',' ∉ cs := fun hm => h (List.mem_cons_of_mem c hm)
    simp only [splitComma, ih hcs]
    rw [if_neg hc]

theorem splitComma_append (xs : List Char) (hx : ',' ∉ xs) (rest : List Char) :
    splitComma (xs ++ ',' :: rest) = xs :: splitComma rest := by
  induction xs with
  | nil =>
    simp only [List.nil_append, splitComma]
    cases hs : splitComma rest with
    | nil => exact absurd hs (splitComma_ne_nil rest)
    | cons p ps => simp
  | cons c xs ih =>
    have hc : ¬(c = ',') := fun he => hx (he ▸ List.mem_cons_self c xs)
    have hxs : ',' ∉ xs := fun hm => hx (List.mem_cons_of_mem c hm)
    simp only [List.cons_append, splitComma]
    rw [show xs.append (',' :: rest) = xs ++ ',' :: rest from rfl, ih hxs]
    show (if c = ',' then [] :: xs :: splitComma rest else (c :: xs) :: splitComma rest)
        = (c :: xs) :: splitComma rest
    rw [if_neg hc]

theorem toList_append_comma (a b : String) :
    (a ++ "," ++ b).toList = a.toList ++ ',' :: b.toList := by
  show (a ++ "," ++ b).data = a.data ++ ',' :: b.data
  rw [String.data_append, String.data_append]
  simp [show ("," : String).data = [','] from rfl]

/-- Claim C8 counterexample: a per-line CIDR override is never passed through
the IP-class normalizer: the override `bogus` is one that
`normalize_ip_class` rejects, yet `resolve_domains` appends it verbatim to
the resolved address and the run does not fail. -/
theorem override_not_normalized :
    resolve_domains (fun _ => some ["1.2.3.4"]) ["example.com,bogus"] "/32"
      = ["1.2.3.4bogus"]
    ∧ normalize_ip_class "bogus" = none := by
  constructor
  · rfl
  · decide

/-- Claim C8 (amended): the function `normalize_ip_class` is applied only to the global
default class; a per-line override is taken verbatim (whitespace-stripped)
from the text after the first comma and appended to every resolved address
with no validation at all. -/
theorem override_used_verbatim (dom suffix : String) (answers : List String)
    (dflt : String) (hdom : ',' ∉ dom.toList) (hsuf : ',' ∉ suffix.toList) :
    resolve_domains (fun _ => some answers) [dom ++ "," ++ suffix] dflt
      = answers.map (fun a => a ++ (⟨stripL suffix.toList⟩ : String)) := by
  have hsplit : splitComma (dom ++ "," ++ suffix).toList = [dom.toList, suffix.toList] := by
    rw [toList_append_comma, splitComma_append dom.toList hdom,
      splitComma_no_comma _ hsuf]
  have hcidr_eq : entryCidr (dom ++ "," ++ suffix) dflt = ⟨stripL suffix.toList⟩ := by
    unfold entryCidr
    rw [hsplit]
  unfold resolve_domains
  simp only [List.flatMap_cons, List.flatMap_nil, List.append_nil]
  rw [hcidr_eq]

theorem override_used_verbatim_witness :
    resolve_domains (fun _ => some ["9.9.9.9"]) ["x.org" ++ "," ++ " B "] "/32"
      = ["9.9.9.9" ++ (⟨stripL (" B " : String).toList⟩ : String)] :=
  override_used_verbatim "x.org" " B " ["9.9.9.9"] "/32" (by decide) (by decide)

/-- Claim C9: function `extract_domain` (which would extract the host of a URL, as its
docstring and the spec describe) is defined but never called: a URL entry of
the domain list reaches the resolver whole.  At the failing input
`https://example.com/path`, the file reader keeps the full URL,
`resolve_domains` hands exactly that full URL to the resolver, while
`extract_domain` would have produced `example.com`. -/
theorem url_reaches_resolver_whole :
    read_domains_from_file ["https://example.com/path\n"] = ["https://example.com/path"]
    ∧ entryDomain "https://example.com/path" = "https://example.com/path"
    ∧ resolve_domains (fun d => some [d]) ["https://example.com/path"] "/32"
        = ["https://example.com/path/32"]
    ∧ extract_domain "https://example.com/path" = "example.com" := by
  refine ⟨?_, ?_, ?_, ?_⟩ <;> decide

/-- Claim C10: on an input line with two or more commas, the entry's domain is
the stripped text before the first comma, its CIDR suffix is the stripped
text between the first and second commas, and everything after the second
comma is silently ignored. -/
theorem second_comma_ignored (a b c dflt : String) (answers : List String)
    (ha : ',' ∉ a.toList) (hb : ',' ∉ b.toList) :
    entryDomain (a ++ "," ++ (b ++ "," ++ c)) = ⟨stripL a.toList⟩
    ∧ entryCidr (a ++ "," ++ (b ++ "," ++ c)) dflt = ⟨stripL b.toList⟩
    ∧ resolve_domains (fun _ => some answers) [a ++ "," ++ (b ++ "," ++ c)] dflt
        = answers.map (fun x => x ++ (⟨stripL b.toList⟩ : String)) := by
  have hsplit : splitComma (a ++ "," ++ (b ++ "," ++ c)).toList
      = a.toList :: b.toList :: splitComma c.toList := by
    rw [toList_append_comma, splitComma_append a.toList ha, toList_append_comma,
      splitComma_append b.toList hb]
  refine ⟨?_, ?_, ?_⟩
  · unfold entryDomain
    rw [hsplit]
    rfl
  · unfold entryCidr
    rw [hsplit]
  · have hcidr_eq : entryCidr (a ++ "," ++ (b ++ "," ++ c)) dflt = ⟨stripL b.toList⟩ := by
      unfold entryCidr
      rw [hsplit]
    unfold resolve_domains
    simp only [List.flatMap_cons, List.flatMap_nil, List.append_nil]
    rw [hcidr_eq]

theorem second_comma_ignored_witness :
    entryDomain ("d.io" ++ "," ++ ("/24" ++ "," ++ "junk")) = ⟨stripL ("d.io" : String).toList⟩
    ∧ entryCidr ("d.io" ++ "," ++ ("/24" ++ "," ++ "junk")) "/32"
        = ⟨stripL ("/24" : String).toList⟩
    ∧ resolve_domains (fun _ => some ["7.7.7.7"]) ["d.io" ++ "," ++ ("/24" ++ "," ++ "junk")] "/32"
        = ["7.7.7.7"].map (fun x => x ++ (⟨stripL ("/24" : String).toList⟩ : String)) :=
  second_comma_ignored "d.io" "/24" "junk" "/32" ["7.7.7.7"] (by decide) (by decide)
